import Mathlib

/-!
Verification of the batch subtitle pipeline (batch_whisper_subtitles.py).

The development shallowly embeds the script:
- the Naming Policy (to_snake_case, built from rsplit, str.lower, the
  regex sub of [^a-z0-9]+ runs by a hyphen, and strip of hyphens);
- the Subtitle Encoder (format_timestamp and the SRT block writer),
  with Python floats modelled as exact rationals;
- the per-file pipeline (process_video with its try/except boundary,
  run_whisper_process, embed_subtitles, clean_whisper_files_for_video),
  with disk state as a list of file names plus an oracle for the
  behaviour of the external processes;
- the asyncio semaphore gate as a labelled transition system.

Modelling notes: Python str.lower is modelled on ASCII; str.strip of a
segment text is modelled by a whitespace trim on the character list;
file names come from a non-recursive glob in the working directory, so
path handling assumes no directory separator inside the name.
-/

/-- ASCII test for the regex character class [a-z0-9]. -/
def isAlnumLower (c : Char) : Bool :=
  (97 ≤ c.toNat && c.toNat ≤ 122) || (48 ≤ c.toNat && c.toNat ≤ 57)

/-- ASCII model of Python str.lower applied to one character. -/
def pyLowerChar (c : Char) : Char :=
  if 65 ≤ c.toNat && c.toNat ≤ 90 then Char.ofNat (c.toNat + 32) else c

/-- Model of Python filename.rsplit(".", 1)[0]: everything before the
last dot, or the whole string when there is no dot. -/
def dropLastExt (cs : List Char) : List Char :=
  if '.' ∈ cs then ((cs.reverse.dropWhile (fun d => d ≠ '.')).drop 1).reverse else cs

/-- Model of re.sub applied with pattern [^a-z0-9]+ and replacement "-":
scan of the characters, where the flag records whether the scan stands
inside a run of characters outside the class, so that each maximal such
run becomes exactly one hyphen. -/
def subNonAlnumAux : Bool → List Char → List Char
  | _, [] => []
  | inRun, c :: cs =>
    if isAlnumLower c then c :: subNonAlnumAux false cs
    else if inRun then subNonAlnumAux true cs
    else '-' :: subNonAlnumAux true cs

/-- The regex substitution, started outside any run. -/
def subNonAlnum (cs : List Char) : List Char :=
  subNonAlnumAux false cs

/-- Model of Python str.strip("-"): remove leading and trailing hyphens. -/
def stripHyphens (cs : List Char) : List Char :=
  ((cs.dropWhile (fun d => d = '-')).reverse.dropWhile (fun d => d = '-')).reverse

/-- The character-level slug pipeline of to_snake_case. -/
def slugChars (cs : List Char) : List Char :=
  stripHyphens (subNonAlnum ((dropLastExt cs).map pyLowerChar))

/-- to_snake_case from the source: strip the last extension, lower-case,
replace runs outside [a-z0-9] by one hyphen, strip hyphens. -/
def to_snake_case (filename : String) : String :=
  ⟨slugChars filename.data⟩

/-- The output path computed by embed_subtitles. -/
def output_path (video_file : String) : String :=
  to_snake_case video_file ++ "_subtitled_en_us.mp4"

/-- Exact rational n / d over integers, built by the normalizing
constructor so that the kernel can evaluate it. -/
def intFrac (n d : ℤ) : ℚ :=
  if d < 0 then mkRat (-n) (-d).toNat else mkRat n d.toNat

/-- Exact rational multiplication on numerators and denominators. -/
def ratMul (a b : ℚ) : ℚ :=
  mkRat (a.num * b.num) (a.den * b.den)

/-- Exact rational subtraction on numerators and denominators. -/
def ratSub (a b : ℚ) : ℚ :=
  mkRat (a.num * (b.den : ℤ) - b.num * (a.den : ℤ)) (a.den * b.den)

/-- Exact rational division by cross multiplication. -/
def ratDiv (a b : ℚ) : ℚ :=
  intFrac (a.num * (b.den : ℤ)) ((a.den : ℤ) * b.num)

/-- Floor of a rational, computed from numerator and denominator. -/
def ratFloor (q : ℚ) : ℤ :=
  Int.fdiv q.num (q.den : ℤ)

/-- Model of Python int() on a real number: truncation toward zero. -/
def pyInt (q : ℚ) : ℤ :=
  Int.tdiv q.num (q.den : ℤ)

/-- Model of Python divmod: floor quotient and remainder. Floats are
modelled as exact rationals. -/
def pyDivmod (a b : ℚ) : ℤ × ℚ :=
  let q := ratFloor (ratDiv a b)
  (q, ratSub a (ratMul (intFrac q 1) b))

/-- Model of a Python format field of shape 0Nd: the decimal digits,
zero-padded on the left of the digits to the requested width. -/
def pyFormatD (width : Nat) (n : ℤ) : String :=
  let sign := if n < 0 then "-" else ""
  let digits := toString n.natAbs
  sign ++ ⟨List.replicate (width - (sign.length + digits.length)) '0'⟩ ++ digits

/-- format_timestamp from the source: successive divmod by 3600 then 60,
milliseconds truncated, fields zero-padded to 2 (hours, minutes,
seconds) and 3 (milliseconds) digits. -/
def format_timestamp (seconds : ℚ) : String :=
  let p1 := pyDivmod seconds 3600
  let p2 := pyDivmod p1.2 60
  let milliseconds := pyInt (ratMul (ratSub p2.2 (intFrac (pyInt p2.2) 1)) 1000)
  pyFormatD 2 p1.1 ++ ":" ++ pyFormatD 2 p2.1 ++ ":" ++ pyFormatD 2 (pyInt p2.2) ++
    "," ++ pyFormatD 3 milliseconds

/-- Model of Python str.strip with no argument: remove leading and
trailing whitespace. -/
def pyStrip (s : String) : String :=
  ⟨((s.data.dropWhile Char.isWhitespace).reverse.dropWhile Char.isWhitespace).reverse⟩

/-- One SRT block as written by run_whisper_process for the segment at
0-based position i: 1-based index, timestamp line, trimmed text, blank
line. A segment is (start seconds, end seconds, text). -/
def srt_entry (i : Nat) (seg : ℚ × ℚ × String) : String :=
  toString (i + 1) ++ "\n" ++ format_timestamp seg.1 ++ " --> " ++
    format_timestamp seg.2.1 ++ "\n" ++ pyStrip seg.2.2 ++ "\n\n"

/-- The SRT text written for the segments enumerated from position i. -/
def write_srt_from (i : Nat) : List (ℚ × ℚ × String) → String
  | [] => ""
  | seg :: rest => srt_entry i seg ++ write_srt_from (i + 1) rest

/-- The full SRT text written by run_whisper_process over the enumerated
segment list. -/
def write_srt (segments : List (ℚ × ℚ × String)) : String :=
  write_srt_from 0 segments

/-- Result of running a piece of Python code: a value, or a raised
exception. -/
inductive PyResult (α : Type) where
  | ok (a : α)
  | raised
deriving DecidableEq

/-- Oracle for the behaviour of the external world during one unit of
work: whether the whisper call inside the worker raises, whether the
executor submission itself faults, whether launching ffmpeg raises,
whether ffmpeg writes its output file, the (otherwise unread) ffmpeg
exit code, and whether a deletion during cleanup raises. -/
structure Oracle where
  executorRaises : Bool
  whisperRaises : Bool
  ffmpegRaises : Bool
  ffmpegWritesOutput : Bool
  ffmpegExitCode : Nat
  cleanupRaises : Bool

/-- The disk is the list of file names that currently exist; writing a
file makes its name present. -/
def insertFile (disk : List String) (f : String) : List String :=
  if f ∈ disk then disk else f :: disk

/-- Model of os.path.splitext applied to a bare file name (the inputs
come from a non-recursive glob, so there is no directory part): cut at
the last dot, unless every character before that dot is itself a dot. -/
def splitext_base (cs : List Char) : List Char :=
  if '.' ∈ cs then
    let pre := ((cs.reverse.dropWhile (fun d => d ≠ '.')).drop 1).reverse
    if pre.any (fun d => d ≠ '.') then pre else cs
  else cs

/-- String form of splitext_base. -/
def splitext_base_str (f : String) : String :=
  ⟨splitext_base f.data⟩

/-- The subtitle path written by run_whisper_process. -/
def srt_path (video_file : String) : String :=
  splitext_base_str video_file ++ ".srt"

/-- run_whisper_process at the file-presence level: its own try/except
catches model and write errors and returns the empty string; on success
the subtitle file is written and its path returned. -/
def run_whisper_process (o : Oracle) (video_file : String) (disk : List String) :
    String × List String :=
  if o.whisperRaises then ("", disk)
  else (srt_path video_file, insertFile disk (srt_path video_file))

/-- The body of embed_subtitles before its except clause: launching
ffmpeg may raise; otherwise ffmpeg may or may not write the output
file, and the stage reports the output path exactly when that path
exists on disk afterwards. The exit code is never consulted. -/
def embed_subtitles_run (o : Oracle) (video_file : String) (disk : List String) :
    PyResult (Option String) × List String :=
  if o.ffmpegRaises then (PyResult.raised, disk)
  else
    let disk1 := if o.ffmpegWritesOutput then insertFile disk (output_path video_file) else disk
    (PyResult.ok (if output_path video_file ∈ disk1 then some (output_path video_file) else none),
      disk1)

/-- embed_subtitles from the source: the body wrapped by the except
clause, which converts a raised exception into the failure marker. -/
def embed_subtitles (o : Oracle) (video_file : String) (disk : List String) :
    Option String × List String :=
  match embed_subtitles_run o video_file disk with
  | (PyResult.raised, d) => (none, d)
  | (PyResult.ok r, d) => (r, d)

/-- The fixed intermediate extensions removed by the cleanup stage. -/
def whisper_exts : List String :=
  [".srt", ".tsv", ".txt", ".vtt", ".json"]

/-- The intermediate file names for one video. -/
def intermediate_files (video_file : String) : List String :=
  whisper_exts.map (fun ext => splitext_base_str video_file ++ ext)

/-- clean_whisper_files_for_video from the source: for each fixed
extension, delete the file for this base name, but only if it exists. -/
def clean_whisper_files_for_video (video_file : String) (disk : List String) :
    List String :=
  whisper_exts.foldl
    (fun d ext =>
      let file_to_delete := splitext_base_str video_file ++ ext
      if file_to_delete ∈ d then d.erase file_to_delete else d)
    disk

/-- The three per-file stages, recorded as events when invoked. -/
inductive Stage where
  | transcribe
  | embed
  | cleanup
deriving DecidableEq

/-- Python truthiness of an optional string. -/
def pyTruthyOpt : Option String → Bool
  | none => false
  | some s => !(s == "")

/-- Outcome, final disk and invoked stages of one unit of work. -/
structure UnitResult where
  outcome : Bool × String
  disk : List String
  trace : List Stage

/-- The try block of process_video: transcription in the executor, the
subtitle checks, embedding, conditional cleanup. A raised value is an
exception escaping the try block. -/
def process_video_body (o : Oracle) (video_file : String) (disk : List String) :
    PyResult (Bool × String) × List String × List Stage :=
  if o.executorRaises then (PyResult.raised, disk, [Stage.transcribe])
  else
    let p := run_whisper_process o video_file disk
    if p.1 == "" || !(p.2.contains p.1) then
      (PyResult.ok (false, video_file), p.2, [Stage.transcribe])
    else
      let q := embed_subtitles o video_file p.2
      if pyTruthyOpt q.1 then
        if o.cleanupRaises then
          (PyResult.raised, q.2, [Stage.transcribe, Stage.embed, Stage.cleanup])
        else
          (PyResult.ok (true, video_file), clean_whisper_files_for_video video_file q.2,
            [Stage.transcribe, Stage.embed, Stage.cleanup])
      else
        (PyResult.ok (false, video_file), q.2, [Stage.transcribe, Stage.embed])

/-- process_video from the source: the try block wrapped by the except
clause, which converts any escaping exception into a false outcome. -/
def process_video (o : Oracle) (video_file : String) (disk : List String) : UnitResult :=
  match process_video_body o video_file disk with
  | (PyResult.raised, d, tr) => ⟨(false, video_file), d, tr⟩
  | (PyResult.ok r, d, tr) => ⟨r, d, tr⟩

/-- Whether the transcription step failed for this unit: the executor
faulted, the worker returned the empty marker, or the subtitle file is
absent. -/
def transcription_failed (o : Oracle) (video_file : String) (disk : List String) : Bool :=
  o.executorRaises ||
    (let p := run_whisper_process o video_file disk
     p.1 == "" || !(p.2.contains p.1))

/-- Whether the embedding stage reported success for this unit. -/
def embed_reported_success (o : Oracle) (video_file : String) (disk : List String) : Bool :=
  !(transcription_failed o video_file disk) &&
    pyTruthyOpt (embed_subtitles o video_file (run_whisper_process o video_file disk).2).1

/-- The disk state just after the embedding stage, before any cleanup. -/
def pre_cleanup_disk (o : Oracle) (video_file : String) (disk : List String) : List String :=
  (embed_subtitles o video_file (run_whisper_process o video_file disk).2).2

/-- Model of asyncio.gather with default semantics: if any task raised,
the join raises; otherwise it returns every result. -/
def gather {α : Type} : List (PyResult α) → PyResult (List α)
  | [] => PyResult.ok []
  | PyResult.raised :: _ => PyResult.raised
  | PyResult.ok a :: ts =>
    match gather ts with
    | PyResult.ok rest => PyResult.ok (a :: rest)
    | PyResult.raised => PyResult.raised

/-- The aggregation in main: one unit of work per input file, each a
total computation because process_video catches its faults, joined by
gather. Each unit carries its own oracle and disk view. -/
def main_outcomes (inputs : List (Oracle × String × List String)) :
    PyResult (List (Bool × String)) :=
  gather (inputs.map (fun p => PyResult.ok (process_video p.1 p.2.1 p.2.2).outcome))

/-- max_concurrent from main: min(available parallelism, 6). -/
def max_concurrent (cpu_count : Nat) : Nat :=
  min cpu_count 6

/-- Phase of one unit of work relative to the semaphore: before
acquisition, inside the gated region, or finished with its boolean
outcome. -/
inductive TaskPhase where
  | pending
  | gated
  | finished (ok : Bool)
deriving DecidableEq

/-- State of the gate: free permits of the semaphore plus the phase of
every unit. -/
structure GateState where
  sem : Nat
  tasks : List TaskPhase
deriving DecidableEq

/-- Initial state of main: the semaphore holds the full capacity and
every input file has a pending unit. -/
def initState (capacity : Nat) (files : List String) : GateState :=
  ⟨capacity, files.map (fun _ => TaskPhase.pending)⟩

/-- Number of units currently inside the gated region. -/
def countGated (ts : List TaskPhase) : Nat :=
  ts.countP (fun t => t == TaskPhase.gated)

/-- Interleaving semantics of the gated units: a pending unit may enter
when a permit is free; a unit inside may leave with either outcome (the
scoped acquisition releases the permit on success, stage failure and
unexpected fault alike). -/
inductive GateStep : GateState → GateState → Prop where
  | acquire (s : GateState) (i : Nat)
      (h : s.tasks.get? i = some TaskPhase.pending) (hs : 0 < s.sem) :
      GateStep s ⟨s.sem - 1, s.tasks.set i TaskPhase.gated⟩
  | release (s : GateState) (i : Nat) (ok : Bool)
      (h : s.tasks.get? i = some TaskPhase.gated) :
      GateStep s ⟨s.sem + 1, s.tasks.set i (TaskPhase.finished ok)⟩

/-- Reachability of a gate state from the initial state of a run. -/
def GateReachable (capacity : Nat) (files : List String) (s : GateState) : Prop :=
  Relation.ReflTransGen GateStep (initState capacity files) s

/-- Appending one segment appends one block, numbered by the position. -/
theorem write_srt_from_append (i : Nat) (xs : List (ℚ × ℚ × String)) (y : ℚ × ℚ × String) :
    write_srt_from i (xs ++ [y]) = write_srt_from i xs ++ srt_entry (i + xs.length) y := by
  induction xs generalizing i with
  | nil => simp [write_srt_from]
  | cons x xs ih =>
    have h : i + 1 + xs.length = i + (xs.length + 1) := by omega
    show srt_entry i x ++ write_srt_from (i + 1) (xs ++ [y]) =
      srt_entry i x ++ write_srt_from (i + 1) xs ++ srt_entry (i + (xs.length + 1)) y
    rw [ih, h, String.append_assoc]

/-- C4: the Subtitle Encoder writes, per segment in input order, a 1-based
index incremented by one, a start --> end line with timestamps derived by
successive divmod by 3600 then 60 and milliseconds truncated, the trimmed
text and a blank line; the two example segments encode to exactly the block
of the spec, whose first end timestamp is 00:00:01,234. -/
theorem srt_encoding_spec :
    write_srt [(0, mkRat 1234 1000, "Hi"), (mkRat 3 2, 2, "Bye")] =
      "1\n00:00:00,000 --> 00:00:01,234\nHi\n\n2\n00:00:01,500 --> 00:00:02,000\nBye\n\n" ∧
    format_timestamp (mkRat 1234 1000) = "00:00:01,234" ∧
    ∀ (segments : List (ℚ × ℚ × String)) (seg : ℚ × ℚ × String),
      write_srt (segments ++ [seg]) = write_srt segments ++ srt_entry segments.length seg :=
  ⟨by decide, by decide, fun segments seg => by
    simpa using write_srt_from_append 0 segments seg⟩

/-- C5: slug of the scenario input is my-movie-2020 and the computed output
filename is my-movie-2020_subtitled_en_us.mp4. -/
theorem slug_scenario :
    to_snake_case "My Movie (2020).mp4" = "my-movie-2020" ∧
    output_path "My Movie (2020).mp4" = "my-movie-2020_subtitled_en_us.mp4" :=
  ⟨by decide, by decide⟩

/-- Inside a run, a list of characters all outside the class produces
no output. -/
theorem subNonAlnumAux_true_all_bad (cs : List Char)
    (h : ∀ c ∈ cs, isAlnumLower c = false) : subNonAlnumAux true cs = [] := by
  induction cs with
  | nil => rfl
  | cons c cs ih =>
    have hc := h c (by simp)
    simp [subNonAlnumAux, hc, ih (fun d hd => h d (by simp [hd]))]

/-- The slug pipeline on a list with no class character yields nothing. -/
theorem stripHyphens_subNonAlnum_all_bad (ls : List Char)
    (h : ∀ c ∈ ls, isAlnumLower c = false) :
    stripHyphens (subNonAlnum ls) = [] := by
  cases ls with
  | nil => rfl
  | cons c cs =>
    have hc := h c (by simp)
    have hs : subNonAlnum (c :: cs) = ['-'] := by
      simp [subNonAlnum, subNonAlnumAux, hc,
        subNonAlnumAux_true_all_bad cs (fun d hd => h d (by simp [hd]))]
    rw [hs]; rfl

/-- C10: when the base name keeps no ASCII letter or digit after
lower-casing, the slug is empty, the computed output path is exactly
_subtitled_en_us.mp4, and every such input maps to that same path. -/
theorem empty_slug_collision (f : String)
    (h : ∀ c ∈ (dropLastExt f.data).map pyLowerChar, isAlnumLower c = false) :
    to_snake_case f = "" ∧ output_path f = "_subtitled_en_us.mp4" := by
  have hslug : to_snake_case f = "" := by
    show (⟨slugChars f.data⟩ : String) = ""
    unfold slugChars
    rw [stripHyphens_subNonAlnum_all_bad _ h]
  exact ⟨hslug, by rw [output_path, hslug]; rfl⟩

/-- C10 witness at the concrete input of only punctuation. -/
theorem empty_slug_collision_witness :
    to_snake_case "!!!.mp4" = "" ∧ output_path "!!!.mp4" = "_subtitled_en_us.mp4" :=
  empty_slug_collision "!!!.mp4" (by decide)

/-- Joining tasks that all completed returns every value. -/
theorem gather_map_ok {α β : Type} (l : List β) (f : β → α) :
    gather (l.map (fun b => PyResult.ok (f b))) = PyResult.ok (l.map f) := by
  induction l with
  | nil => rfl
  | cons b l ih => simp [gather, ih]

/-- Sample oracle where submitting to the executor faults. -/
def sampleExecFault : Oracle :=
  ⟨true, false, false, false, 0, false⟩

/-- C1: every per-file fault is caught at the unit boundary and becomes a
false outcome, units are total computations, and the join over the batch
is the identity aggregation: it never raises and yields, for every input
file, exactly the outcome of its own unit. -/
theorem fault_isolation :
    (∀ inputs : List (Oracle × String × List String),
      main_outcomes inputs =
        PyResult.ok (inputs.map (fun p => (process_video p.1 p.2.1 p.2.2).outcome))) ∧
    ∀ (o : Oracle) (v : String) (d : List String),
      (process_video_body o v d).1 = PyResult.raised →
        (process_video o v d).outcome = (false, v) := by
  constructor
  · intro inputs
    exact gather_map_ok inputs (fun p => (process_video p.1 p.2.1 p.2.2).outcome)
  · intro o v d h
    unfold process_video
    rcases hb : process_video_body o v d with ⟨pr, dd, tr⟩
    rw [hb] at h
    simp only at h
    subst h
    rfl

/-- C1 witness: a unit whose executor submission faults still yields the
false outcome for its own file. -/
theorem fault_isolation_witness :
    (process_video sampleExecFault "a.mp4" []).outcome = (false, "a.mp4") :=
  fault_isolation.2 sampleExecFault "a.mp4" [] (by decide)

/-- Sample oracle of a clean embedding run that writes its output. -/
def sampleEmbedOk : Oracle :=
  ⟨false, false, false, true, 0, false⟩

/-- C8: after the subprocess completes, embedding returns the computed
output path exactly when that path exists on disk; the only other result
is the failure marker; a launch failure yields the failure marker rather
than an exception; and the result never depends on the exit code. -/
theorem embed_success_criterion :
    ∀ (o : Oracle) (v : String) (d : List String),
      (o.ffmpegRaises = false →
        ((embed_subtitles o v d).1 = some (output_path v) ↔
          output_path v ∈ (embed_subtitles o v d).2)) ∧
      ((embed_subtitles o v d).1 = none ∨ (embed_subtitles o v d).1 = some (output_path v)) ∧
      (o.ffmpegRaises = true → (embed_subtitles o v d).1 = none) ∧
      ∀ k, embed_subtitles { o with ffmpegExitCode := k } v d = embed_subtitles o v d := by
  intro o v d
  unfold embed_subtitles embed_subtitles_run
  cases hR : o.ffmpegRaises with
  | true => simp
  | false =>
    simp only [Bool.false_eq_true, if_false]
    constructor
    · intro _
      by_cases hm :
          output_path v ∈ (if o.ffmpegWritesOutput then insertFile d (output_path v) else d) <;>
        simp [hm]
    · constructor
      · by_cases hm :
            output_path v ∈ (if o.ffmpegWritesOutput then insertFile d (output_path v) else d) <;>
          simp [hm]
      · simp

/-- C8 witness at a run that writes the output file. -/
theorem embed_success_criterion_witness :
    (embed_subtitles sampleEmbedOk "a.mp4" []).1 = some (output_path "a.mp4") ↔
      output_path "a.mp4" ∈ (embed_subtitles sampleEmbedOk "a.mp4" []).2 :=
  (embed_success_criterion sampleEmbedOk "a.mp4" []).1 rfl

/-- Sample oracle where the whisper model raises inside the worker. -/
def sampleWhisperFault : Oracle :=
  ⟨false, true, false, false, 0, false⟩

/-- C9: the Failed state is absorbing: after a transcription failure the
unit invokes no further stage, and after an embedding failure the unit
invokes no cleanup. -/
theorem failed_is_absorbing :
    ∀ (o : Oracle) (v : String) (d : List String),
      (transcription_failed o v d = true →
        (process_video o v d).trace = [Stage.transcribe]) ∧
      (transcription_failed o v d = false → embed_reported_success o v d = false →
        (process_video o v d).trace = [Stage.transcribe, Stage.embed]) := by
  intro o v d
  constructor
  · intro h
    unfold transcription_failed at h
    unfold process_video process_video_body
    cases hE : o.executorRaises with
    | true => simp
    | false =>
      rw [hE] at h
      simp only [Bool.false_or] at h
      dsimp only
      rw [h]
      simp
  · intro h1 h2
    unfold transcription_failed at h1
    unfold embed_reported_success transcription_failed at h2
    unfold process_video process_video_body
    have hE : o.executorRaises = false := by
      cases hE : o.executorRaises
      · rfl
      · rw [hE] at h1; simp at h1
    rw [hE] at h1 h2
    simp only [Bool.false_or] at h1
    simp only [Bool.false_or, h1, Bool.not_false, Bool.true_and] at h2
    dsimp only
    rw [hE, h1, h2]
    simp

/-- C9 witness: after a whisper fault neither embedding nor cleanup runs. -/
theorem failed_is_absorbing_witness :
    (process_video sampleWhisperFault "a.mp4" []).trace = [Stage.transcribe] :=
  (failed_is_absorbing sampleWhisperFault "a.mp4" []).1 (by decide)

/-- Replacing the element at a valid position changes countP by the
difference of the two indicator values. -/
theorem countP_set_eq {α : Type} (p : α → Bool) :
    ∀ (l : List α) (i : Nat) (a b : α), l.get? i = some a →
      (l.set i b).countP p + (if p a then 1 else 0) =
        l.countP p + (if p b then 1 else 0) := by
  intro l
  induction l with
  | nil => intro i a b h; simp at h
  | cons x xs ih =>
    intro i a b h
    cases i with
    | zero =>
      obtain rfl : x = a := by simpa using h
      simp only [List.set, List.countP_cons]
      omega
    | succ i =>
      simp only [List.get?_cons_succ] at h
      simp only [List.set, List.countP_cons]
      have := ih i a b h
      omega

/-- The permit count plus the number of gated units is constant along
every step. -/
theorem gateStep_inv {capacity : Nat} {s t : GateState} (hs : GateStep s t)
    (h : s.sem + countGated s.tasks = capacity) :
    t.sem + countGated t.tasks = capacity := by
  cases hs with
  | acquire i hi hsem =>
    have hc := countP_set_eq (fun t => t == TaskPhase.gated) s.tasks i _ TaskPhase.gated hi
    simp only [countGated] at h ⊢
    simp at hc
    omega
  | release i ok hi =>
    have hc :=
      countP_set_eq (fun t => t == TaskPhase.gated) s.tasks i _ (TaskPhase.finished ok) hi
    simp only [countGated] at h ⊢
    simp at hc
    omega

/-- Along any reachable state the free permits and the gated units sum
to the capacity. -/
theorem gate_reachable_inv (capacity : Nat) (files : List String) (s : GateState)
    (h : GateReachable capacity files s) :
    s.sem + countGated s.tasks = capacity := by
  induction h with
  | refl => simp [initState, countGated, List.countP_map, Function.comp]
  | tail _ hstep ih => exact gateStep_inv hstep ih

/-- C2: with capacity min(available parallelism, 6), in every reachable
state of a run over any list of input files the number of units inside
the gated region never exceeds the capacity, and a gated unit can always
release its permit with either outcome. -/
theorem gate_capacity_invariant (cpu_count : Nat) (files : List String) (s : GateState)
    (h : GateReachable (max_concurrent cpu_count) files s) :
    countGated s.tasks ≤ max_concurrent cpu_count ∧
      ∀ (i : Nat) (ok : Bool), s.tasks.get? i = some TaskPhase.gated →
        ∃ t, GateStep s t ∧ t.sem = s.sem + 1 ∧
          t.tasks.get? i = some (TaskPhase.finished ok) := by
  constructor
  · have := gate_reachable_inv (max_concurrent cpu_count) files s h
    omega
  · intro i ok hi
    refine ⟨⟨s.sem + 1, s.tasks.set i (TaskPhase.finished ok)⟩,
      GateStep.release s i ok hi, rfl, ?_⟩
    have hlen : i < s.tasks.length := (List.get?_eq_some.1 hi).1
    rw [List.get?_eq_getElem?, List.getElem?_set_eq_of_lt (TaskPhase.finished ok) hlen]

/-- C2 witness: a state reached after one acquisition in a two-file run
with 8 available cores respects the bound, and its gated unit can
release with a success outcome. -/
theorem gate_capacity_invariant_witness :
    countGated [TaskPhase.gated, TaskPhase.pending] ≤ max_concurrent 8 ∧
      ∃ t, GateStep ⟨5, [TaskPhase.gated, TaskPhase.pending]⟩ t ∧ t.sem = 5 + 1 ∧
        t.tasks.get? 0 = some (TaskPhase.finished true) := by
  have h := gate_capacity_invariant 8 ["a.mp4", "b.mp4"]
    ⟨5, [TaskPhase.gated, TaskPhase.pending]⟩
    (Relation.ReflTransGen.single
      (GateStep.acquire (initState (max_concurrent 8) ["a.mp4", "b.mp4"]) 0 rfl (by decide)))
  exact ⟨h.1, h.2 0 true rfl⟩

/-- Writing a file preserves absence of duplicates on the disk. -/
theorem insertFile_nodup (d : List String) (hd : d.Nodup) (f : String) :
    (insertFile d f).Nodup := by
  unfold insertFile
  split
  · exact hd
  · exact List.nodup_cons.2 ⟨by assumption, hd⟩

/-- Writing a file keeps every existing file present. -/
theorem insertFile_supset (d : List String) (f g : String) (hg : g ∈ d) :
    g ∈ insertFile d f := by
  unfold insertFile
  split
  · exact hg
  · exact List.mem_cons_of_mem f hg

/-- The worker process only adds files to the disk. -/
theorem run_whisper_disk_supset (o : Oracle) (v : String) (d : List String) (g : String)
    (hg : g ∈ d) : g ∈ (run_whisper_process o v d).2 := by
  unfold run_whisper_process
  split
  · exact hg
  · exact insertFile_supset d _ g hg

/-- The worker process keeps the disk duplicate-free. -/
theorem run_whisper_disk_nodup (o : Oracle) (v : String) (d : List String)
    (hd : d.Nodup) : (run_whisper_process o v d).2.Nodup := by
  unfold run_whisper_process
  split
  · exact hd
  · exact insertFile_nodup d hd _

/-- The embedding stage only adds files to the disk. -/
theorem embed_disk_supset (o : Oracle) (v : String) (d : List String) (g : String)
    (hg : g ∈ d) : g ∈ (embed_subtitles o v d).2 := by
  unfold embed_subtitles embed_subtitles_run
  cases hR : o.ffmpegRaises with
  | true => simp [hg]
  | false =>
    cases hW : o.ffmpegWritesOutput with
    | true => simpa using insertFile_supset d (output_path v) g hg
    | false => simpa using hg

/-- The embedding stage keeps the disk duplicate-free. -/
theorem embed_disk_nodup (o : Oracle) (v : String) (d : List String)
    (hd : d.Nodup) : (embed_subtitles o v d).2.Nodup := by
  unfold embed_subtitles embed_subtitles_run
  cases hR : o.ffmpegRaises with
  | true => simp [hd]
  | false =>
    cases hW : o.ffmpegWritesOutput with
    | true => simpa using insertFile_nodup d hd (output_path v)
    | false => simpa using hd

/-- Guarded deletion of a list of file names on a duplicate-free disk
keeps exactly the files outside that list. -/
theorem foldl_delete_mem (fs : List String) :
    ∀ d : List String, d.Nodup →
      (fs.foldl (fun d f0 => if f0 ∈ d then d.erase f0 else d) d).Nodup ∧
        ∀ f, f ∈ fs.foldl (fun d f0 => if f0 ∈ d then d.erase f0 else d) d ↔
          f ∈ d ∧ f ∉ fs := by
  induction fs with
  | nil => intro d hd; exact ⟨hd, by simp⟩
  | cons f0 fs ih =>
    intro d hd
    simp only [List.foldl_cons]
    by_cases hf0 : f0 ∈ d
    · rw [if_pos hf0]
      obtain ⟨hN, hM⟩ := ih (d.erase f0) (hd.erase f0)
      refine ⟨hN, fun f => ?_⟩
      rw [hM f, hd.mem_erase_iff]
      simp only [List.mem_cons]
      constructor
      · rintro ⟨⟨hne, hf⟩, hnfs⟩
        exact ⟨hf, fun h => h.elim (fun e => hne e) hnfs⟩
      · rintro ⟨hf, hn⟩
        exact ⟨⟨fun e => hn (Or.inl e), hf⟩, fun hh => hn (Or.inr hh)⟩
    · rw [if_neg hf0]
      obtain ⟨hN, hM⟩ := ih d hd
      refine ⟨hN, fun f => ?_⟩
      rw [hM f]
      simp only [List.mem_cons]
      constructor
      · rintro ⟨hf, hnfs⟩
        exact ⟨hf, fun h => h.elim (fun e => hf0 (e ▸ hf)) hnfs⟩
      · rintro ⟨hf, hn⟩
        exact ⟨hf, fun hh => hn (Or.inr hh)⟩

/-- Cleanup removes exactly the intermediate files of the video that are
present, and nothing else. -/
theorem clean_mem (v : String) (d : List String) (hd : d.Nodup) (f : String) :
    f ∈ clean_whisper_files_for_video v d ↔ f ∈ d ∧ f ∉ intermediate_files v := by
  have h := (foldl_delete_mem (intermediate_files v) d hd).2 f
  rw [intermediate_files, List.foldl_map] at h
  exact h

/-- C3: the cleanup stage runs exactly when embedding reported success
for the file; cleanup deletes exactly the fixed intermediate extensions
for the base name, a member only when present; and when embedding failed
or was never reached no file is deleted. -/
theorem cleanup_iff_embed_success (o : Oracle) (v : String) (d : List String)
    (hd : d.Nodup) :
    (Stage.cleanup ∈ (process_video o v d).trace ↔ embed_reported_success o v d = true) ∧
    (∀ f, f ∈ clean_whisper_files_for_video v d ↔ f ∈ d ∧ f ∉ intermediate_files v) ∧
    (embed_reported_success o v d = true → o.cleanupRaises = false →
      ∀ f, f ∈ (process_video o v d).disk ↔
        f ∈ pre_cleanup_disk o v d ∧ f ∉ intermediate_files v) ∧
    (embed_reported_success o v d = false → ∀ f, f ∈ d → f ∈ (process_video o v d).disk) := by
  unfold process_video process_video_body embed_reported_success transcription_failed
    pre_cleanup_disk
  dsimp only
  cases hE : o.executorRaises with
  | true =>
    refine ⟨by simp, fun f => clean_mem v d hd f, by simp, ?_⟩
    intro _ f hf
    simpa using hf
  | false =>
    cases hT : ((run_whisper_process o v d).1 == "" ||
        !(run_whisper_process o v d).2.contains (run_whisper_process o v d).1) with
    | true =>
      refine ⟨by simp, fun f => clean_mem v d hd f, by simp, ?_⟩
      intro _ f hf
      simpa using run_whisper_disk_supset o v d f hf
    | false =>
      cases hP : pyTruthyOpt (embed_subtitles o v (run_whisper_process o v d).2).1 with
      | true =>
        cases hC : o.cleanupRaises with
        | true =>
          refine ⟨by simp, fun f => clean_mem v d hd f, by simp, by simp⟩
        | false =>
          refine ⟨by simp, fun f => clean_mem v d hd f, ?_, by simp⟩
          intro _ _ f
          simpa using clean_mem v _
            (embed_disk_nodup o v _ (run_whisper_disk_nodup o v d hd)) f
      | false =>
        refine ⟨by simp, fun f => clean_mem v d hd f, by simp, ?_⟩
        intro _ f hf
        simpa using embed_disk_supset o v _ f (run_whisper_disk_supset o v d f hf)

/-- No two adjacent hyphens. -/
def NoTwoHyphens (a b : Char) : Prop :=
  ¬(a = '-' ∧ b = '-')

/-- A character of the class is not a hyphen. -/
theorem isAlnumLower_ne_hyphen {c : Char} (h : isAlnumLower c = true) : c ≠ '-' := by
  intro he
  rw [he] at h
  exact absurd h (by decide)

/-- A character of the class is not a dot. -/
theorem isAlnumLower_ne_dot {c : Char} (h : isAlnumLower c = true) : c ≠ '.' := by
  intro he
  rw [he] at h
  exact absurd h (by decide)

/-- Every character the substitution emits is in the class or a hyphen. -/
theorem mem_subNonAlnumAux :
    ∀ (cs : List Char) (b : Bool) (c : Char), c ∈ subNonAlnumAux b cs →
      isAlnumLower c = true ∨ c = '-' := by
  intro cs
  induction cs with
  | nil => intro b c h; simp [subNonAlnumAux] at h
  | cons x xs ih =>
    intro b c h
    by_cases hx : isAlnumLower x = true
    · rw [subNonAlnumAux, if_pos hx] at h
      rcases List.mem_cons.1 h with rfl | h
      · exact Or.inl hx
      · exact ih false c h
    · rw [subNonAlnumAux, if_neg hx] at h
      cases b with
      | true => exact ih true c h
      | false =>
        rcases List.mem_cons.1 (by simpa using h) with rfl | h
        · exact Or.inr rfl
        · exact ih true c h

/-- Inside a run, the next emitted character is in the class. -/
theorem head?_subNonAlnumAux_true :
    ∀ (cs : List Char) (c : Char), (subNonAlnumAux true cs).head? = some c →
      isAlnumLower c = true := by
  intro cs
  induction cs with
  | nil => intro c h; simp [subNonAlnumAux] at h
  | cons x xs ih =>
    intro c h
    by_cases hx : isAlnumLower x = true
    · rw [subNonAlnumAux, if_pos hx] at h
      obtain rfl : x = c := by simpa using h
      exact hx
    · rw [subNonAlnumAux, if_neg hx] at h
      exact ih c (by simpa using h)

/-- The substitution never emits two adjacent hyphens. -/
theorem chain'_subNonAlnumAux :
    ∀ (cs : List Char) (b : Bool), List.Chain' NoTwoHyphens (subNonAlnumAux b cs) := by
  intro cs
  induction cs with
  | nil => intro b; simp [subNonAlnumAux]
  | cons x xs ih =>
    intro b
    by_cases hx : isAlnumLower x = true
    · rw [subNonAlnumAux, if_pos hx]
      exact List.chain'_cons'.2
        ⟨fun y _ hxy => isAlnumLower_ne_hyphen hx hxy.1, ih false⟩
    · rw [subNonAlnumAux, if_neg hx]
      cases b with
      | true => exact ih true
      | false =>
        refine List.chain'_cons'.2 ⟨fun y hy hxy => ?_, ih true⟩
        exact isAlnumLower_ne_hyphen (head?_subNonAlnumAux_true xs y hy) hxy.2

/-- The head of a dropWhile result does not satisfy the predicate. -/
theorem head?_dropWhile_false {α : Type} (p : α → Bool) :
    ∀ (l : List α) (c : α), (l.dropWhile p).head? = some c → p c = false := by
  intro l
  induction l with
  | nil => intro c h; simp at h
  | cons x xs ih =>
    intro c h
    rw [List.dropWhile_cons] at h
    by_cases hx : p x = true
    · rw [if_pos hx] at h
      exact ih c h
    · rw [if_neg hx] at h
      obtain rfl : x = c := by simpa using h
      exact Bool.not_eq_true _ |>.mp hx

/-- A nonempty dropWhile result keeps the last element of the list. -/
theorem getLast?_dropWhile_ne_nil {α : Type} (p : α → Bool) :
    ∀ l : List α, l.dropWhile p ≠ [] → (l.dropWhile p).getLast? = l.getLast? := by
  intro l
  induction l with
  | nil => intro h; simp at h
  | cons x xs ih =>
    intro h
    rw [List.dropWhile_cons]
    by_cases hx : p x = true
    · rw [List.dropWhile_cons, if_pos hx] at h
      rw [if_pos hx, ih h]
      cases xs with
      | nil => simp at h
      | cons y ys => simp [List.getLast?_cons_cons]
    · rw [if_neg hx]

/-- Stripping hyphens keeps only characters of the original list. -/
theorem mem_stripHyphens {c : Char} {l : List Char} (h : c ∈ stripHyphens l) : c ∈ l := by
  unfold stripHyphens at h
  rw [List.mem_reverse] at h
  have h1 := (List.dropWhile_suffix (l := (l.dropWhile (fun d => d = '-')).reverse)
    (fun d => d = '-')).subset h
  rw [List.mem_reverse] at h1
  exact (List.dropWhile_suffix (fun d => d = '-')).subset h1

/-- Stripping hyphens preserves the absence of adjacent hyphens. -/
theorem chain'_stripHyphens {l : List Char} (h : List.Chain' NoTwoHyphens l) :
    List.Chain' NoTwoHyphens (stripHyphens l) := by
  unfold stripHyphens
  have hsymm : ∀ a b : Char, NoTwoHyphens a b → flip NoTwoHyphens a b :=
    fun a b hab hba => hab ⟨hba.2, hba.1⟩
  have h1 : List.Chain' NoTwoHyphens (l.dropWhile (fun d => d = '-')) :=
    h.suffix (List.dropWhile_suffix _)
  have h2 : List.Chain' NoTwoHyphens ((l.dropWhile (fun d => d = '-')).reverse) :=
    List.chain'_reverse.2 ((h1.imp hsymm))
  have h3 : List.Chain' NoTwoHyphens
      (((l.dropWhile (fun d => d = '-')).reverse).dropWhile (fun d => d = '-')) :=
    h2.suffix (List.dropWhile_suffix _)
  exact List.chain'_reverse.2 (h3.imp hsymm)

/-- The stripped list does not start with a hyphen. -/
theorem head?_stripHyphens {l : List Char} {c : Char}
    (h : (stripHyphens l).head? = some c) : c ≠ '-' := by
  unfold stripHyphens at h
  rw [List.head?_reverse] at h
  have hne : ((l.dropWhile (fun d => d = '-')).reverse.dropWhile (fun d => d = '-')) ≠ [] := by
    intro he
    rw [he] at h
    simp at h
  rw [getLast?_dropWhile_ne_nil _ _ hne, List.getLast?_reverse] at h
  have := head?_dropWhile_false (fun d => d = '-') l c h
  simpa using this

/-- The stripped list does not end with a hyphen. -/
theorem getLast?_stripHyphens {l : List Char} {c : Char}
    (h : (stripHyphens l).getLast? = some c) : c ≠ '-' := by
  unfold stripHyphens at h
  rw [List.getLast?_reverse] at h
  have := head?_dropWhile_false (fun d => d = '-')
    ((l.dropWhile (fun d => d = '-')).reverse) c h
  simpa using this

/-- On a list of class characters and isolated hyphens the substitution
is the identity; inside a run this needs the list not to start with a
hyphen. -/
theorem subNonAlnumAux_fixpoint :
    ∀ l : List Char, (∀ c ∈ l, isAlnumLower c = true ∨ c = '-') →
      List.Chain' NoTwoHyphens l →
      subNonAlnumAux false l = l ∧
        ((∀ c, l.head? = some c → c ≠ '-') → subNonAlnumAux true l = l) := by
  intro l
  induction l with
  | nil => intro _ _; exact ⟨rfl, fun _ => rfl⟩
  | cons x xs ih =>
    intro hmem hchain
    obtain ⟨hfix, hfixT⟩ := ih (fun c hc => hmem c (List.mem_cons_of_mem x hc)) hchain.tail
    rcases hmem x (List.mem_cons_self x xs) with hx | hx
    · constructor
      · rw [subNonAlnumAux, if_pos hx, hfix]
      · intro _
        rw [subNonAlnumAux, if_pos hx, hfix]
    · subst hx
      have hxbad : isAlnumLower '-' = true → False := by decide
      constructor
      · rw [subNonAlnumAux, if_neg hxbad]
        have hxs : subNonAlnumAux true xs = xs := by
          apply hfixT
          intro c hc he
          have := (List.chain'_cons'.1 hchain).1 c hc
          exact this ⟨rfl, he⟩
        rw [hxs]
        simp
      · intro hhead
        exact absurd rfl (hhead '-' rfl)

/-- On a list with no leading and no trailing hyphen the strip is the
identity. -/
theorem stripHyphens_fixpoint (l : List Char)
    (hh : ∀ c, l.head? = some c → c ≠ '-')
    (hl : ∀ c, l.getLast? = some c → c ≠ '-') :
    stripHyphens l = l := by
  have hstep : ∀ m : List Char, (∀ c, m.head? = some c → c ≠ '-') →
      m.dropWhile (fun d => d = '-') = m := by
    intro m hm
    cases m with
    | nil => rfl
    | cons y ys =>
      rw [List.dropWhile_cons, if_neg]
      simpa using hm y rfl
  unfold stripHyphens
  rw [hstep l hh]
  rw [hstep l.reverse (fun c hc => hl c (by rwa [List.head?_reverse] at hc))]
  exact List.reverse_reverse l

/-- Lower-casing is the identity on class characters and hyphens. -/
theorem pyLowerChar_fixed {c : Char} (h : isAlnumLower c = true ∨ c = '-') :
    pyLowerChar c = c := by
  rcases h with h | rfl
  · unfold pyLowerChar
    rw [if_neg]
    simp only [isAlnumLower, Bool.or_eq_true, Bool.and_eq_true, decide_eq_true_eq] at h
    simp only [Bool.and_eq_true, decide_eq_true_eq, not_and]
    omega
  · rfl

/-- Lower-casing fixes a list of class characters and hyphens. -/
theorem map_pyLowerChar_fixed {l : List Char}
    (h : ∀ c ∈ l, isAlnumLower c = true ∨ c = '-') :
    l.map pyLowerChar = l := by
  induction l with
  | nil => rfl
  | cons x xs ih =>
    rw [List.map_cons, pyLowerChar_fixed (h x (List.mem_cons_self x xs)),
      ih (fun c hc => h c (List.mem_cons_of_mem x hc))]

/-- Without a dot the extension strip is the identity. -/
theorem dropLastExt_no_dot {l : List Char} (h : '.' ∉ l) : dropLastExt l = l := by
  unfold dropLastExt
  rw [if_neg h]

/-- A dropWhile jumps over a block where the predicate holds. -/
theorem dropWhile_append_of_all {α : Type} (p : α → Bool) :
    ∀ (xs ys : List α), (∀ x ∈ xs, p x = true) →
      (xs ++ ys).dropWhile p = ys.dropWhile p := by
  intro xs ys
  induction xs with
  | nil => intro _; rfl
  | cons x xs ih =>
    intro h
    rw [List.cons_append, List.dropWhile_cons, if_pos (h x (List.mem_cons_self x xs))]
    exact ih (fun c hc => h c (List.mem_cons_of_mem x hc))

/-- Stripping the last extension removes exactly a dot-led dot-free
suffix appended to a dot-free base. -/
theorem dropLastExt_append_ext {pre rest : List Char}
    (hrest : '.' ∉ rest) :
    dropLastExt (pre ++ '.' :: rest) = pre := by
  unfold dropLastExt
  rw [if_pos (by simp)]
  have hrev : (pre ++ '.' :: rest).reverse = rest.reverse ++ '.' :: pre.reverse := by
    simp
  rw [hrev, dropWhile_append_of_all _ rest.reverse ('.' :: pre.reverse)
    (fun c hc => by simp; exact fun he => hrest (he ▸ List.mem_reverse.1 hc))]
  rw [List.dropWhile_cons, if_neg (by simp)]
  simp

/-- The slug output contains only class characters and single hyphens,
and neither starts nor ends with a hyphen. -/
theorem slugChars_good (cs : List Char) :
    (∀ c ∈ slugChars cs, isAlnumLower c = true ∨ c = '-') ∧
      List.Chain' NoTwoHyphens (slugChars cs) ∧
      (∀ c, (slugChars cs).head? = some c → c ≠ '-') ∧
      (∀ c, (slugChars cs).getLast? = some c → c ≠ '-') := by
  refine ⟨?_, ?_, ?_, ?_⟩
  · intro c hc
    exact mem_subNonAlnumAux _ false c (mem_stripHyphens hc)
  · exact chain'_stripHyphens (chain'_subNonAlnumAux _ false)
  · intro c hc
    exact head?_stripHyphens hc
  · intro c hc
    exact getLast?_stripHyphens hc

/-- Re-slugging a slug with an empty or normal extension appended gives
the slug back. -/
theorem slugChars_slug_append (cs ext : List Char)
    (h : ext = [] ∨ ∃ rest : List Char, ext = '.' :: rest ∧ '.' ∉ rest) :
    slugChars (slugChars cs ++ ext) = slugChars cs := by
  obtain ⟨hmem, hchain, hhead, hlast⟩ := slugChars_good cs
  have hdot : '.' ∉ slugChars cs := by
    intro hc
    rcases hmem '.' hc with hbad | hbad
    · exact absurd hbad (by decide)
    · exact absurd hbad (by decide)
  have h1 : dropLastExt (slugChars cs ++ ext) = slugChars cs := by
    rcases h with rfl | ⟨rest, rfl, hrest⟩
    · rw [List.append_nil]
      exact dropLastExt_no_dot hdot
    · exact dropLastExt_append_ext hrest
  show stripHyphens (subNonAlnum ((dropLastExt (slugChars cs ++ ext)).map pyLowerChar)) =
    slugChars cs
  rw [h1, map_pyLowerChar_fixed hmem]
  rw [show subNonAlnum (slugChars cs) = slugChars cs from
    (subNonAlnumAux_fixpoint (slugChars cs) hmem hchain).1]
  exact stripHyphens_fixpoint _ hhead hlast

/-- C6 counterexample: with the extension string b, re-slugging does not
give the slug of a back, refuting idempotence for arbitrary extensions. -/
theorem slug_idempotence_counterexample :
    to_snake_case (to_snake_case "a" ++ "b") ≠ to_snake_case "a" := by decide

/-- C6 amended: slug(slug(x) + ext) = slug(x) for the empty extension and
for every extension made of one dot followed by a dot-free suffix. -/
theorem slug_idempotent_under_extension (x ext : String)
    (h : ext = "" ∨ ∃ rest : String, ext = "." ++ rest ∧ '.' ∉ rest.data) :
    to_snake_case (to_snake_case x ++ ext) = to_snake_case x := by
  have hdata : (to_snake_case x ++ ext).data = slugChars x.data ++ ext.data := rfl
  show (⟨slugChars (to_snake_case x ++ ext).data⟩ : String) = ⟨slugChars x.data⟩
  rw [hdata, slugChars_slug_append x.data ext.data]
  rcases h with rfl | ⟨rest, rfl, hrest⟩
  · exact Or.inl rfl
  · exact Or.inr ⟨rest.data, rfl, hrest⟩

/-- C6 witness at the scenario slug with a dot-led extension. -/
theorem slug_idempotent_under_extension_witness :
    to_snake_case (to_snake_case "My Movie (2020).mp4" ++ ".mkv") =
      to_snake_case "My Movie (2020).mp4" :=
  slug_idempotent_under_extension "My Movie (2020).mp4" ".mkv"
    (Or.inr ⟨"mkv", rfl, by decide⟩)

/-- The substitution preserves the subsequence of class characters. -/
theorem filter_subNonAlnumAux :
    ∀ (cs : List Char) (b : Bool),
      (subNonAlnumAux b cs).filter isAlnumLower = cs.filter isAlnumLower := by
  intro cs
  induction cs with
  | nil => intro b; rfl
  | cons x xs ih =>
    intro b
    have hhyp : isAlnumLower '-' = false := by decide
    by_cases hx : isAlnumLower x = true
    · simp [subNonAlnumAux, hx, List.filter_cons, ih false]
    · have hxf : isAlnumLower x = false := by simpa using hx
      cases b with
      | true => simp [subNonAlnumAux, hxf, List.filter_cons, ih true]
      | false => simp [subNonAlnumAux, hxf, hhyp, List.filter_cons, ih true]

/-- The strip of hyphens preserves the subsequence of class characters. -/
theorem filter_stripHyphens (l : List Char) :
    (stripHyphens l).filter isAlnumLower = l.filter isAlnumLower := by
  have hdrop : ∀ m : List Char,
      (m.dropWhile (fun d => d = '-')).filter isAlnumLower = m.filter isAlnumLower := by
    intro m
    induction m with
    | nil => rfl
    | cons y ys ih =>
      rw [List.dropWhile_cons]
      by_cases hy : y = '-'
      · subst hy
        rw [if_pos (by simp), ih, List.filter_cons, if_neg (by decide)]
      · rw [if_neg (by simpa using hy)]
  unfold stripHyphens
  rw [List.filter_reverse, hdrop, List.filter_reverse, List.reverse_reverse, hdrop]

/-- The class characters of a slug are exactly those of the lower-cased
base name. -/
theorem filter_slugChars (cs : List Char) :
    (slugChars cs).filter isAlnumLower =
      ((dropLastExt cs).map pyLowerChar).filter isAlnumLower := by
  unfold slugChars subNonAlnum
  rw [filter_stripHyphens, filter_subNonAlnumAux]

/-- C7 counterexample: the two distinct inputs a.mp4 and a.avi differ in
alphanumeric characters, yet their output paths coincide, because the
differing characters sit in the stripped extension. -/
theorem output_collision_counterexample :
    ("a.mp4" : String) ≠ "a.avi" ∧
      ("a.mp4".data.map pyLowerChar).filter isAlnumLower ≠
        ("a.avi".data.map pyLowerChar).filter isAlnumLower ∧
      output_path "a.mp4" = output_path "a.avi" :=
  ⟨by decide, by decide, by decide⟩

/-- C7 amended: the output mapping is a pure function of the file name
and two inputs whose base names (after stripping the last extension and
lower-casing) differ in their alphanumeric subsequence get distinct
output paths; collisions can only come from characters the slug strips. -/
theorem output_path_injective_on_base (f g : String)
    (h : ((dropLastExt f.data).map pyLowerChar).filter isAlnumLower ≠
        ((dropLastExt g.data).map pyLowerChar).filter isAlnumLower) :
    output_path f ≠ output_path g := by
  intro he
  apply h
  have hdata : slugChars f.data ++ "_subtitled_en_us.mp4".data =
      slugChars g.data ++ "_subtitled_en_us.mp4".data := congrArg String.data he
  have hslug : slugChars f.data = slugChars g.data := List.append_cancel_right hdata
  rw [← filter_slugChars, ← filter_slugChars, hslug]

/-- C7 witness: a.mp4 and b.mp4 differ in the base and so their output
paths differ. -/
theorem output_path_injective_on_base_witness :
    output_path "a.mp4" ≠ output_path "b.mp4" :=
  output_path_injective_on_base "a.mp4" "b.mp4" (by decide)

/-- C3 witness: in a clean successful run over an empty disk the cleanup
runs exactly because embedding succeeded, and afterwards the subtitle
intermediate is kept if and only if it survives outside the intermediate
set, which it does not. -/
theorem cleanup_iff_embed_success_witness :
    (Stage.cleanup ∈ (process_video sampleEmbedOk "a.mp4" []).trace ↔
      embed_reported_success sampleEmbedOk "a.mp4" [] = true) ∧
    (srt_path "a.mp4" ∈ (process_video sampleEmbedOk "a.mp4" []).disk ↔
      srt_path "a.mp4" ∈ pre_cleanup_disk sampleEmbedOk "a.mp4" [] ∧
        srt_path "a.mp4" ∉ intermediate_files "a.mp4") := by
  have h := cleanup_iff_embed_success sampleEmbedOk "a.mp4" [] List.nodup_nil
  exact ⟨h.1, h.2.2.1 (by decide) rfl (srt_path "a.mp4")⟩
